import Mathlib

/-!
Verification development for the piebot sound-change pipeline and spelling
generator (src/piebot.py).

Modelling conventions, used uniformly below:
* a phone is a Lean String; a phone sequence is a List String;
* the space-joined context text handed to the regular-expression searches is
  modelled as a List Char built by joinPhones (the translation of
  a join with a single space between phones);
* every regular-expression context pattern of the source is translated to a
  Bool predicate on the joined text giving the exact semantics of the Python
  re.search call (search = does some substring of the text match); each
  predicate carries a comment quoting the pattern it translates;
* Python float arithmetic on integer counts (only used for ranking scores,
  sum of counts divided by a length) is modelled as exact rational
  arithmetic; the stable sort with reverse=True is modelled by a stable
  insertion sort by descending key;
* a Python IndexError is modelled by Option: none means the call raises.
-/

/-- Stable insertion of x in front of the first element with a strictly
smaller key: this is the insertion step of a stable descending sort, so a
tie keeps the earlier element (x, which comes earlier in the input) first,
exactly like the Python built-in sorted with reverse=True. -/
def insertDescBy {α β : Type*} [LinearOrder β] (f : α → β) (x : α) : List α → List α
  | [] => [x]
  | y :: ys => if f y ≤ f x then x :: y :: ys else y :: insertDescBy f x ys

/-- Stable sort by descending key, the model of sorted(..., reverse=True, key=f). -/
def sortDescBy {α β : Type*} [LinearOrder β] (f : α → β) (l : List α) : List α :=
  l.foldr (insertDescBy f) []

/-- Model of sorted(l, key=len, reverse=True) on a list of strings. -/
def sortLenDesc (l : List String) : List String :=
  sortDescBy (fun s => s.length) l

/-- Translation of a space-join of the phone list: the joined text as a
character list, with a single space character between adjacent phones. -/
def joinPhones : List String → List Char
  | [] => []
  | [p] => p.toList
  | p :: q :: rest => p.toList ++ (' ') :: joinPhones (q :: rest)

/-- Does pat occur as a contiguous substring (infix) of the character list. -/
def isSubOf (pat : List Char) : List Char → Bool
  | [] => pat.isEmpty
  | c :: cs => pat.isPrefixOf (c :: cs) || isSubOf pat cs

/-- Python str.replace on character lists: replace every non-overlapping
occurrence of pat (nonempty in all uses below), scanning left to right.
The Nat argument is fuel; replaceSub supplies the length of the text,
which suffices because every step consumes at least one character. -/
def replaceSubAux (pat repl : List Char) : Nat → List Char → List Char
  | _, [] => []
  | 0, l => l
  | fuel + 1, c :: cs =>
    if !pat.isEmpty && pat.isPrefixOf (c :: cs) then
      repl ++ replaceSubAux pat repl fuel ((c :: cs).drop pat.length)
    else c :: replaceSubAux pat repl fuel cs

/-- Python text.replace(pat, repl) on character lists. -/
def replaceSub (pat repl l : List Char) : List Char :=
  replaceSubAux pat repl l.length l

/-- Python str.split() with no argument on a space-separated character list:
split on runs of spaces, never producing empty strings. -/
def splitWsAux : List Char → List Char → List String
  | [], acc => if acc.isEmpty then [] else [String.mk acc.reverse]
  | c :: cs, acc =>
    if c == (' ') then
      if acc.isEmpty then splitWsAux cs [] else String.mk acc.reverse :: splitWsAux cs []
    else splitWsAux cs (c :: acc)

/-- Python text.split() for texts whose only whitespace is the space character. -/
def splitWs (l : List Char) : List String :=
  splitWsAux l []

/-- The vowel list of the source (line 146). -/
def vowels : List String :=
  ["a","e","i","o","u","a:","e:","i:","o:","u:","y","y:","oe","oe:",
   "E","E:","A","A:","O","O:","ae","ae:",
   "eI","ai","oi","eu","au","ou",
   "eI:","ai:","oi:","eu:","au:","ou:"]

/-- The voiceless list of the source (line 143). -/
def voiceless : List String := ["p","t","k","f","T","x","kw"]

/-- The characters of the CONSONANT_PATTERN character class: the source
builds the class text by joining the length-sorted vowel tokens with the
three characters close-paren, bar, open-paren, so the class contains every
character of every vowel token plus those three punctuation characters. -/
def consonant_class_chars : List Char :=
  ((("(") ++ String.intercalate (")|(") (sortLenDesc vowels) ++ (")")).toList)

/-- One character matches CONSONANT_PATTERN, the complemented class built
from the vowel tokens (source line 151). -/
def consonant_class_char (c : Char) : Bool :=
  !(consonant_class_chars.contains c)

/-- The characters of the VOICED_PATTERN character class, built from the
voiceless tokens the same way (source line 145). -/
def voiced_class_chars : List Char :=
  ((("(") ++ String.intercalate (")|(") (sortLenDesc voiceless) ++ (")")).toList)

/-- One character matches VOICED_PATTERN, the complemented class built from
the voiceless tokens. -/
def voiced_class_char (c : Char) : Bool :=
  !(voiced_class_chars.contains c)

/-- Search semantics helper: some alternative is a prefix of the text.
This is re.search of an anchored pattern of the shape caret (A|B|...) . -/
def hasPrefixAny (alts : List String) (cs : List Char) : Bool :=
  alts.any (fun a => a.toList.isPrefixOf cs)

/-- Search semantics helper: some alternative is a suffix of the text.
This is re.search of a pattern of the shape .*(A|B|...) followed by the
dollar anchor. -/
def hasSuffixAny (alts : List String) (cs : List Char) : Bool :=
  alts.any (fun a => a.toList.isSuffixOf cs)

/-- Search semantics helper: some alternative occurs inside the text.
This is re.search of an unanchored pattern of the shape .*(A|B|...) . -/
def hasInfixAny (alts : List String) (cs : List Char) : Bool :=
  alts.any (fun a => isSubOf (a.toList) cs)

/-- Context predicate for the pattern .* : re.search succeeds on every text. -/
def ctx_any (_ : List Char) : Bool := true

/-- Context predicate for the pattern caret-dollar: re.search succeeds
exactly on the empty text. -/
def ctx_empty (cs : List Char) : Bool := cs.isEmpty

/-- Context predicate for the Grimm pattern (.*[^s]|caret-dollar): the
first alternative search-matches iff the text contains some character other
than s, the second iff the text is empty. -/
def grimm1_prior (cs : List Char) : Bool :=
  cs.isEmpty || cs.any (fun c => c != 's')

/-- Context predicate for the Verner prior pattern .*VOWEL.*space.* :
re.search succeeds iff some vowel token occurs in the text ending at a
position k such that a space occurs at or after k. -/
def verner_prior (cs : List Char) : Bool :=
  (List.range (cs.length + 1)).any (fun k =>
    ((sortLenDesc vowels).any (fun v => v.toList.isSuffixOf (cs.take k))) &&
    (cs.drop k).contains (' '))

/-- Context predicate for the two-syllable patterns
.*VOWEL.*space.*VOWEL and .*VOWEL.*space.*VOWEL.* : re.search succeeds iff
some vowel token ends at a position k, a space occurs at a position j at or
after k, and some vowel token occurs after position j. -/
def ctx_two_syll (cs : List Char) : Bool :=
  (List.range (cs.length + 1)).any (fun k =>
    ((sortLenDesc vowels).any (fun v => v.toList.isSuffixOf (cs.take k))) &&
    ((List.range ((cs.drop k).length)).any (fun j =>
      ((cs.drop k).getD j (' ') == (' ')) &&
      ((sortLenDesc vowels).any (fun v => isSubOf (v.toList) ((cs.drop k).drop (j + 1)))))))

/-- Posterior pattern caret (n|m) space CONSONANT: the text starts with n
or m, then a space, then a consonant-class character. -/
def pg_nasal_cons_post (cs : List Char) : Bool :=
  match cs with
  | a :: b :: c :: _ => (a == 'n' || a == 'm') && b == (' ') && consonant_class_char c
  | _ => false

/-- Unanchored pattern .*(i|i:|j): some alternative occurs in the text. -/
def ctx_contains_ij (cs : List Char) : Bool := hasInfixAny ["i","i:","j"] cs

/-- Prior pattern e: dollar: the text ends with e-colon. -/
def pg_prior_e_long (cs : List Char) : Bool := hasSuffixAny ["e:"] cs

/-- Posterior pattern caret u. -/
def post_starts_u (cs : List Char) : Bool := hasPrefixAny ["u"] cs

/-- Prior pattern .*(i|i:|j) dollar. -/
def prior_ends_ij (cs : List Char) : Bool := hasSuffixAny ["i","i:","j"] cs

/-- Posterior pattern caret (i|i:|j).* . -/
def post_starts_ij (cs : List Char) : Bool := hasPrefixAny ["i","i:","j"] cs

/-- Prior pattern .*n dollar. -/
def prior_ends_n (cs : List Char) : Bool := hasSuffixAny ["n"] cs

/-- Prior pattern .*VOICELESS dollar. -/
def prior_ends_voiceless (cs : List Char) : Bool := hasSuffixAny (sortLenDesc voiceless) cs

/-- Posterior pattern caret VOICELESS .* . -/
def post_starts_voiceless (cs : List Char) : Bool := hasPrefixAny (sortLenDesc voiceless) cs

/-- Posterior pattern caret VOICED, a single complemented-class character. -/
def post_starts_voiced_class (cs : List Char) : Bool :=
  match cs.head? with
  | some c => voiced_class_char c
  | none => false

/-- Prior pattern VOWEL dollar. -/
def prior_ends_vowel (cs : List Char) : Bool := hasSuffixAny (sortLenDesc vowels) cs

/-- Posterior pattern caret VOWEL. -/
def post_starts_vowel (cs : List Char) : Bool := hasPrefixAny (sortLenDesc vowels) cs

/-- Prior pattern CONSONANT dollar, a single complemented-class character at
the end of the text. -/
def prior_ends_cons_class (cs : List Char) : Bool :=
  match cs.getLast? with
  | some c => consonant_class_char c
  | none => false

/-- Posterior pattern caret [^naou]+ dollar: the whole text is nonempty and
every character avoids n, a, o, u. -/
def post_ash (cs : List Char) : Bool :=
  !cs.isEmpty && cs.all (fun c => !((['n','a','o','u'] : List Char).contains c))

/-- Posterior pattern caret CONSONANT .* [i|i:|j] .* : the text starts with
a consonant-class character and some later character lies in the character
class containing i, the bar, the colon and j (square brackets in the
source, so a character class, not an alternation). -/
def loe_post_umlaut (cs : List Char) : Bool :=
  match cs with
  | c :: rest => consonant_class_char c && rest.any (fun d => (['i','|',':','j'] : List Char).contains d)
  | [] => false

/-- Posterior pattern caret [vlr] space [aou]. -/
def loe_post_velar (cs : List Char) : Bool :=
  match cs with
  | a :: b :: c :: _ =>
      (['v','l','r'] : List Char).contains a && b == (' ') && (['a','o','u'] : List Char).contains c
  | _ => false

/-- Posterior pattern caret [rlhx] CONSONANT. -/
def loe_post_breaking (cs : List Char) : Bool :=
  match cs with
  | a :: b :: _ => (['r','l','h','x'] : List Char).contains a && consonant_class_char b
  | _ => false

/-- Posterior pattern caret r. -/
def post_starts_r (cs : List Char) : Bool := hasPrefixAny ["r"] cs

/-- Posterior pattern caret [Nn][kgdt]. -/
def me_post_nasal_stop (cs : List Char) : Bool :=
  match cs with
  | a :: b :: _ => (['N','n'] : List Char).contains a && (['k','g','d','t'] : List Char).contains b
  | _ => false

/-- Posterior pattern caret [lrn]. -/
def post_starts_lrn (cs : List Char) : Bool :=
  match cs.head? with
  | some c => (['l','r','n'] : List Char).contains c
  | none => false

/-- Posterior pattern caret w. -/
def post_starts_w (cs : List Char) : Bool := hasPrefixAny ["w"] cs

/-- Posterior pattern caret l .* . -/
def post_starts_l (cs : List Char) : Bool := hasPrefixAny ["l"] cs

/-- Prior pattern .*[pfwb] dollar. -/
def prior_ends_pfwb (cs : List Char) : Bool :=
  match cs.getLast? with
  | some c => (['p','f','w','b'] : List Char).contains c
  | none => false

/-- Posterior pattern caret [lS] dollar: the whole text is a single
character, l or S. -/
def post_exactly_lS (cs : List Char) : Bool :=
  match cs with
  | [c] => (['l','S'] : List Char).contains c
  | _ => false

/-- Prior pattern .*ae dollar. -/
def prior_ends_ae (cs : List Char) : Bool := hasSuffixAny ["ae"] cs

/-- Prior pattern .*m dollar. -/
def prior_ends_m (cs : List Char) : Bool := hasSuffixAny ["m"] cs

/-- The per-position emission of sound_change: the phone is rewritten by
the map exactly when it is a key and both context searches succeed on the
joined texts of the phones strictly before (prev) and strictly after
(rest). -/
def sc_emit (maps : List (String × String)) (prior posterior : List Char → Bool)
    (prev : List String) (p : String) (rest : List String) : String :=
  match maps.lookup p with
  | none => p
  | some q => if prior (joinPhones prev) && posterior (joinPhones rest) then q else p

/-- The position loop of sound_change: prev accumulates the phones already
passed (always taken from the original input), rest holds the phones still
to process. -/
def sound_change_go (maps : List (String × String)) (prior posterior : List Char → Bool) :
    List String → List String → List String
  | _, [] => []
  | prev, p :: rest =>
    sc_emit maps prior posterior prev p rest ::
      sound_change_go maps prior posterior (prev ++ [p]) rest

/-- Translation of sound_change (source lines 153-172): conditioned
substitution at every position, contexts taken from the original input
sequence, followed by dropping every empty-string entry. -/
def sound_change (orig_pron : List String) (maps : List (String × String))
    (prior posterior : List Char → Bool) : List String :=
  (sound_change_go maps prior posterior [] orig_pron).filter (fun s => s ≠ (""))

/-- A rule: a phone map plus a prior and a posterior context predicate. -/
abbrev SCRule := List (String × String) × (List Char → Bool) × (List Char → Bool)

/-- Apply an ordered list of sound_change rules left to right. -/
def apply_rules (rules : List SCRule) (pron : List String) : List String :=
  rules.foldl (fun p r => sound_change p r.1 r.2.1 r.2.2) pron

/-- The laryngeal-deletion keys of late_pie_changes (source line 176). -/
def dict_h_deletion : List (String × String) :=
  [("h1",""),("h2",""),("h3",""),("\\H","")]

/-- Translation of late_pie_changes (source lines 174-178): drop every
phone that is a key of the laryngeal dictionary. -/
def late_pie_changes (pron : List String) : List String :=
  pron.filter (fun phone => (dict_h_deletion.lookup phone).isNone)

/-- Grimm pass 1 map (source line 182). -/
def dict_grimm1 : List (String × String) :=
  [("p","f"),("t","T"),("k_>","x"),("k","x"),("kw","xw")]

/-- Grimm pass 2 map (source line 183). -/
def dict_grimm2 : List (String × String) :=
  [("b","p"),("d","t"),("g_>","k"),("g","k"),("gw","kw")]

/-- Grimm pass 3 map (source line 184). -/
def dict_grimm3 : List (String × String) :=
  [("bh","v"),("dh","D"),("g_>h","G"),("gh","G"),("gwh","Gw")]

/-- The three ordered Grimm passes (source lines 187-189). -/
def grimm_rules : List SCRule :=
  [(dict_grimm1, grimm1_prior, ctx_any),
   (dict_grimm2, ctx_any, ctx_any),
   (dict_grimm3, ctx_any, ctx_any)]

/-- Translation of grimm_changes (source lines 180-191). -/
def grimm_changes (pron : List String) : List String :=
  apply_rules grimm_rules pron

/-- The Verner map (source line 554). -/
def dict_verner : List (String × String) :=
  [("s","z"),("f","v"),("x","Z"),("xw","Zw")]

/-- Translation of the Verner step as invoked by generate_entry
(source lines 553-555). -/
def verner_changes (pron : List String) : List String :=
  sound_change pron dict_verner verner_prior ctx_any

/-- The phones addressed by the rule maps of proto_germanic_changes. -/
def pg_keys : List String :=
  ["o","u","e","a:","i","eI:","ai:","oi:","eu:","au:","ou:","oi","ou","eI","eu"]

/-- Translation of proto_germanic_changes (source lines 193-228), including
the irregular whole-text rewrite replacing the three-phone text a-n-x by the
long vowel (source line 212). -/
def proto_germanic_changes (pron : List String) : List String :=
  let pg1 := sound_change pron [("o","a")] ctx_any ctx_any
  let pg2 := sound_change pg1 [("u","o")] ctx_any pg_nasal_cons_post
  let pg3 := sound_change pg2 [("e","i")] ctx_any pg_nasal_cons_post
  let pg4 := sound_change pg3 [("e","i")] ctx_any ctx_contains_ij
  let pg5 := sound_change pg4 [("a:","o:")] ctx_any ctx_any
  let pg6 := splitWs (replaceSub (("a n x").toList) (("a:").toList) (joinPhones pg5))
  let pg7 := sound_change pg6 [("i","")] pg_prior_e_long ctx_any
  let pg8 := sound_change pg7
    [("eI:","eI"),("ai:","ai"),("oi:","oi"),("eu:","eu"),("au:","au"),("ou:","ou")] ctx_any ctx_any
  let pg9 := sound_change pg8 [("oi","ai"),("ou","au"),("eI","i:")] ctx_any ctx_any
  sound_change pg9 [("eu","iu")] ctx_any ctx_contains_ij

/-- The ordered rules of old_english_changes (source lines 230-288). -/
def oe_rules : List SCRule :=
  [([("Gw","G")], ctx_any, post_starts_u),
   ([("Gw","w")], ctx_any, ctx_any),
   ([("G","j")], prior_ends_ij, ctx_any),
   ([("G","j")], ctx_any, post_starts_ij),
   ([("G","g")], ctx_empty, ctx_any),
   ([("G","g")], prior_ends_n, ctx_any),
   ([("G","x")], ctx_any, ctx_empty),
   ([("v","b")], ctx_empty, ctx_any),
   ([("v","f")], prior_ends_voiceless, ctx_empty),
   ([("v","f")], prior_ends_voiceless, post_starts_voiceless),
   ([("D","d")], ctx_any, ctx_any),
   ([("x","h")], ctx_any, post_starts_voiced_class),
   ([("h","")], prior_ends_vowel, post_starts_vowel),
   ([("z","r\\")], prior_ends_vowel, ctx_any),
   ([("z","")], prior_ends_cons_class, ctx_empty),
   ([("a","ae")], ctx_any, post_ash),
   ([("a:","o:")], ctx_any, ctx_any),
   ([("ai","a:"),("au","ea"),("eu","eo:"),("iu","eo:")], ctx_any, ctx_any)]

/-- Translation of old_english_changes (source lines 230-288). -/
def old_english_changes (pron : List String) : List String :=
  apply_rules oe_rules pron

/-- The ordered rules of late_old_english_changes (source lines 290-308). -/
def loe_rules : List SCRule :=
  [([("a","e"),("ae","e"),("o","e"),("u","y"),("a:","ae:"),("o:","e:"),("u:","y:"),
     ("ea","ie"),("eo","ie"),("io","ie")], ctx_any, loe_post_umlaut),
   ([("e","eo"),("i","io")], ctx_any, loe_post_velar),
   ([("i","io"),("e","eo"),("ae","ea"),("a","ea"),("i:","eo"),("io:","eo:")],
     ctx_any, loe_post_breaking)]

/-- Translation of late_old_english_changes (source lines 290-308). -/
def late_old_english_changes (pron : List String) : List String :=
  apply_rules loe_rules pron

/-- Translation of me_vowel_lengthening (source lines 310-322): the guard
count less than length minus two of the Python scan is the Nat condition
count plus two less than length, so the two lookahead accesses are always
in range, and a vowel phone is nonempty so its last character exists. -/
def me_vowel_lengthening (pron : List String) : List String :=
  (List.range pron.length).map (fun count =>
    let phone := pron.getD count ("")
    if count + 2 < pron.length then
      if vowels.contains phone
          && (["r\\","l","m","n"] : List String).contains (pron.getD (count + 1) (""))
          && (["b","d","g"] : List String).contains (pron.getD (count + 2) (""))
          && (phone.toList.getLast? != some (':')) then
        phone ++ (":")
      else phone
    else phone)

/-- Translation of me_vowel_shortening (source lines 324-336). -/
def me_vowel_shortening (pron : List String) : List String :=
  (List.range pron.length).map (fun count =>
    let phone := pron.getD count ("")
    if count + 2 < pron.length then
      if vowels.contains phone
          && (["s","f"] : List String).contains (pron.getD (count + 1) (""))
          && (pron.getD (count + 2) ("") == ("t"))
          && (phone.toList.getLast? == some (':')) then
        String.mk phone.toList.dropLast
      else phone
    else phone)

/-- The first-vowel loop of me_second_lengthening: lengthen the first vowel
phone (when not already long) and keep everything else. -/
def lengthen_first_vowel : List String → List String
  | [] => []
  | p :: ps =>
    if vowels.contains p then
      (if p.toList.getLast? != some (':') then p ++ (":") else p) :: ps
    else p :: lengthen_first_vowel ps

/-- Translation of me_second_lengthening (source lines 338-355): when the
two-syllable pattern search succeeds the sequence is nonempty, so the
Python access to the last phone is in range; the getD default is never the
selected branch in that case. -/
def me_second_lengthening (pron : List String) : List String :=
  if ctx_two_syll (joinPhones pron) then
    if vowels.contains (pron.getLast?.getD ("")) then
      (lengthen_first_vowel pron).dropLast
    else pron
  else pron

/-- The i-diphthong map of me_diphthongization (source line 362). -/
def dict_dip_i : List (String × String) :=
  [("ae","ai"),("e","eI"),("i","i"),("o","oi"),("u","ui")]

/-- The u-diphthong map of me_diphthongization (source line 363). -/
def dict_dip_u : List (String × String) :=
  [("o","ou"),("i","iu"),("a","au"),("e","eu"),("u","u")]

/-- Translation of me_diphthongization (source lines 357-384): a scan that
consumes two input phones when a stripped base vowel is followed by the
matching glide, and one phone otherwise. The source reads the last
character of the current phone to strip a length mark; within the stage the
phone is never empty, and the Option-free strip here returns the phone
unchanged for an empty phone. -/
def me_diphthongization : List String → List String
  | [] => []
  | [p] => [p]
  | p :: q :: rest =>
    let pl := if p.toList.getLast? == some (':') then String.mk p.toList.dropLast else p
    if (dict_dip_i.lookup pl).isSome && (["j","h"] : List String).contains q then
      ((dict_dip_i.lookup pl).getD pl) :: me_diphthongization rest
    else if (dict_dip_u.lookup pl).isSome && (["G","w"] : List String).contains q then
      ((dict_dip_u.lookup pl).getD pl) :: me_diphthongization rest
    else p :: me_diphthongization (q :: rest)

/-- Translation of the metathesis block of middle_english_changes (source
lines 418-422): only entered when the backslash-r space i text occurs in
the joined sequence. -/
def me_metathesis (me : List String) : List String :=
  if isSubOf (("r\\ i").toList) (joinPhones me) then
    let mw := splitWs (replaceSub (("r\\ i").toList) (("r\\_i").toList) (joinPhones me))
    let mw2 := sound_change mw [("r\\_i","i_r\\")] prior_ends_cons_class ctx_any
    splitWs (replaceSub (("_").toList) ((" ").toList) (joinPhones mw2))
  else me

/-- Translation of middle_english_changes (source lines 386-441). -/
def middle_english_changes (pron : List String) : List String :=
  let m1 := sound_change pron [("y","i"),("ae","a")] ctx_any ctx_any
  let m2 := sound_change m1 [("y:","i:"),("ae:","E:"),("a:","O:")] ctx_any ctx_any
  let m3 := sound_change m2 [("ea","a"),("eo","e"),("ie","i")] ctx_any ctx_any
  let m4 := me_vowel_lengthening m3
  let m5 := me_vowel_shortening m4
  let m6 := me_second_lengthening m5
  let m7 := sound_change m6 [("e","a")] ctx_any post_starts_r
  let m8 := sound_change m7 [("e","i")] ctx_any me_post_nasal_stop
  let m9 := me_metathesis m8
  let m10 := me_diphthongization m9
  let m11 := splitWs (replaceSub (("s k_>").toList) (("s_k_>").toList) (joinPhones m10))
  let m12 := sound_change m11 [("s_k_>","tS")] ctx_any ctx_any
  let m13 := sound_change m12 [("k_>","tS"),("G","w")] ctx_any ctx_any
  let m14 := sound_change m13 [("h","")] ctx_any post_starts_lrn
  let m15 := sound_change m14 [("x","h")] ctx_any post_starts_w
  sound_change m15 [("xw","w")] ctx_any ctx_any

/-- The vowel-reduction scan of early_modern_english_changes (source lines
489-500): the first vowel phone is kept, every later vowel phone becomes
the schwa token. -/
def vowel_reduction : List String → List String
  | [] => []
  | p :: ps =>
    if vowels.contains p then
      p :: ps.map (fun q => if vowels.contains q then ("@") else q)
    else p :: vowel_reduction ps

/-- Python str.strip with the colon character: remove every leading and
trailing colon. -/
def pyStripColon (s : String) : String :=
  String.mk (((s.toList.dropWhile (fun c => c == (':'))).reverse.dropWhile
    (fun c => c == (':'))).reverse)

/-- Translation of early_modern_english_changes (source lines 443-510). -/
def early_modern_english_changes (pron : List String) : List String :=
  let e1 := sound_change pron [("a","O:")] ctx_any post_starts_l
  let e2 := sound_change e1 [("a","ae")] ctx_any ctx_any
  let e3 := sound_change e2 [("u","V")] prior_ends_pfwb ctx_any
  let e4 := sound_change e3 [("u","V")] ctx_any post_exactly_lS
  let e5 := sound_change e4
    [("i:","aI"),("e:","i"),("E:","i"),("u","au"),("oU","u:"),("O","ou"),("A:","ae"),("ae:","eI")]
    ctx_any ctx_any
  let e6 := sound_change e5
    [("ai","eI"),("au","O"),("iu","ju"),("eu","ju"),("Eu","ju"),("Ou","oU"),("ui","OI")]
    ctx_any ctx_any
  let e7 := splitWs (replaceSub (("ju").toList) (("j u").toList)
    (replaceSub (("Eu").toList) (("j u").toList)
      (replaceSub (("eu").toList) (("j u").toList)
        (replaceSub (("iu").toList) (("j u").toList) (joinPhones e6)))))
  let e8 := sound_change e7 [("f","v"),("T","D"),("s","z"),("tS","dZ")] ctx_two_syll ctx_any
  let e9 := sound_change e8 [("x","f")] prior_ends_ae ctx_any
  let e10 := sound_change e9 [("x","")] ctx_any ctx_any
  let e11 := sound_change e10 [("b","")] prior_ends_m ctx_any
  let e12 := splitWs (replaceSub (("t j").toList) (("tS ").toList) (joinPhones e11))
  let e13 := splitWs (replaceSub (("d j").toList) (("dZ ").toList) (joinPhones e12))
  let e14 := splitWs (replaceSub (("s j").toList) (("S ").toList) (joinPhones e13))
  let e15 := splitWs (replaceSub (("z j").toList) (("Z ").toList) (joinPhones e14))
  let e16 := vowel_reduction e15
  let e17 := e16.map (fun p => if vowels.contains p then pyStripColon p else p)
  let e18 := splitWs (replaceSub (("kw").toList) (("k w").toList) (joinPhones e17))
  let e19 := splitWs (replaceSub (("gw").toList) (("g w").toList) (joinPhones e18))
  e19.map (fun p => if p == ("io") then ("IO") else p)

/-- The pipeline segment of generate_entry from the split pronunciation up
to the Middle English stage (source lines 547-568). -/
def pipeline_to_middle_english (pron : List String) : List String :=
  middle_english_changes
    (late_old_english_changes
      (old_english_changes
        (proto_germanic_changes
          (verner_changes
            (grimm_changes
              (late_pie_changes pron))))))

/-- The silent-e flag computation of generate_entry (source lines 565-570):
the final Middle English phone is inspected unconditionally, so an empty
Middle English output raises an IndexError, modelled by none. -/
def final_e_flag (pron : List String) : Option Bool :=
  match (pipeline_to_middle_english pron).getLast? with
  | none => none
  | some p => some (vowels.contains p)

/-- Translation of pron_breaker (source lines 69-80). The Nat argument is
fuel; pron_breaker supplies the length of the sequence, which suffices
because every recursive call is on a strictly shorter suffix. The Python
generator yields the one-group partition only for a length-one input,
yields the two-group split at every cut point, and then prefixes the first
group to every partition recursively produced for the remainder. -/
def pron_breaker_aux {α : Type*} : Nat → List α → List (List (List α))
  | 0, _ => []
  | fuel + 1, pron =>
    (if pron.length == 1 then [[pron]] else []) ++
      (List.range' 1 (pron.length - 1)).flatMap (fun i =>
        [pron.take i, pron.drop i] ::
          (pron_breaker_aux fuel (pron.drop i)).map (fun split => pron.take i :: split))

/-- Translation of pron_breaker (source lines 69-80): the list of yielded
partitions, in yield order. -/
def pron_breaker {α : Type*} (pron : List α) : List (List (List α)) :=
  pron_breaker_aux pron.length pron

/-- The sampa normalization map of generate_spelling (source lines 82-83). -/
def sampa_map : List (String × String) :=
  [("e","eI"),("u:","u"),("a:","A"),("iu","ju"),("au","aU"),("io","IO"),
   ("eu","ju"),("o","o"),("i:","i"),("e:","E"),("a","A"),("ae","eI")]

/-- The normalization pass of generate_spelling (source line 107). -/
def normalize_pron (pron : List String) : List String :=
  pron.map (fun p => (sampa_map.lookup p).getD p)

/-- The sonorant letters of the silent-e touch-up (source line 128). -/
def sonorants : List Char := ['w','r','l','m','n']

/-- The vowel letters of the silent-e touch-up (source line 129). -/
def vowel_letters : List Char := ['a','e','i','o','u','y']

/-- The silent-e insertion touch-up (source lines 128-130): reading the
last letter of an empty string, or the second-to-last letter of a
one-letter string whose only letter is a sonorant, raises an IndexError,
modelled by none. The second index is only reached when the last letter is
a sonorant, mirroring the and short-circuit of the source. -/
def touch_up_sonorant (s : List Char) : Option (List Char) :=
  match s.getLast? with
  | none => none
  | some last =>
    if sonorants.contains last then
      match s.dropLast.getLast? with
      | none => none
      | some pen =>
        if vowel_letters.contains pen then some s
        else some (s.dropLast ++ ['e', last])
    else some s

/-- Both touch-ups of generate_spelling in order (source lines 128-132):
the sonorant insertion, then the final silent-e append when the flag is set
and the string does not already end in e. -/
def touch_ups (final_e : Bool) (s : List Char) : Option (List Char) :=
  (touch_up_sonorant s).map (fun s1 =>
    if final_e && !(s1.getLast? == some 'e') then s1 ++ ['e'] else s1)

/-- The per-group selection of generate_spelling (source lines 119-122):
sort the candidate list of the model entry by count, descending and
stable, and take the first element; none models the IndexError on an empty
candidate list. -/
def best_candidate (cands : List (String × Nat)) : Option (String × Nat) :=
  (sortDescBy (fun x => x.2) cands).head?

/-- The same selection stated the way the specification words it: the
first candidate holding the highest recorded count. -/
def max_candidate : List (String × Nat) → Option (String × Nat)
  | [] => none
  | c :: rest => some (rest.foldl (fun best x => if best.2 < x.2 then x else best) c)

/-- The coverage test of generate_spelling (source lines 111-113): every
group of the partition, concatenated, is a key of the model. -/
def partition_accepted (model : List (String × List (String × Nat)))
    (broken : List (List String)) : Bool :=
  broken.all (fun seq => (model.lookup (String.join seq)).isSome)

/-- The chosen grapheme and count for every group of a partition. -/
def partition_choices (model : List (String × List (String × Nat)))
    (broken : List (List String)) : Option (List (String × Nat)) :=
  broken.mapM (fun seq => (model.lookup (String.join seq)).bind best_candidate)

/-- The specification-worded variant of partition_choices. -/
def partition_choices_spec (model : List (String × List (String × Nat)))
    (broken : List (List String)) : Option (List (String × Nat)) :=
  broken.mapM (fun seq => (model.lookup (String.join seq)).bind max_candidate)

/-- The raw spelling of an accepted partition: the concatenation of the
chosen per-group graphemes. -/
def raw_spelling (model : List (String × List (String × Nat)))
    (broken : List (List String)) : String :=
  String.join (((partition_choices model broken).getD []).map (fun x => x.1))

/-- One iteration of the partition loop of generate_spelling (source lines
109-133): skip a partition that is not fully covered, otherwise append the
touched-up spelling with its score, the sum of the chosen counts divided by
the number of groups. none models an exception escaping the loop. -/
def spelling_step (model : List (String × List (String × Nat))) (final_e : Bool)
    (acc : List (String × ℚ)) (broken : List (List String)) : Option (List (String × ℚ)) :=
  if partition_accepted model broken then
    (partition_choices model broken).bind (fun choices =>
      (touch_ups final_e (String.join (choices.map (fun x => x.1))).toList).map (fun t =>
        acc ++ [(String.mk t, ((((choices.map (fun x => x.2)).sum : ℕ) : ℚ)) / ((broken.length : ℚ)))]))
  else some acc

/-- Translation of generate_spelling (source lines 88-139): normalize,
enumerate the partitions with pron_breaker, process each, then return the
strings of the top five scored spellings, sorted by score descending with
the stable sort. none models an IndexError escaping generate_spelling. -/
def generate_spelling (model : List (String × List (String × Nat)))
    (pron : List String) (final_e : Bool) : Option (List String) :=
  ((pron_breaker (normalize_pron pron)).foldlM (spelling_step model final_e) []).map
    (fun spellings => ((sortDescBy (fun x => x.2) spellings).take 5).map (fun x => x.1))

/-- The specification-worded variant of spelling_step, selecting per group
through max_candidate. -/
def spelling_step_spec (model : List (String × List (String × Nat))) (final_e : Bool)
    (acc : List (String × ℚ)) (broken : List (List String)) : Option (List (String × ℚ)) :=
  if partition_accepted model broken then
    (partition_choices_spec model broken).bind (fun choices =>
      (touch_ups final_e (String.join (choices.map (fun x => x.1))).toList).map (fun t =>
        acc ++ [(String.mk t, ((((choices.map (fun x => x.2)).sum : ℕ) : ℚ)) / ((broken.length : ℚ)))]))
  else some acc

/-- The specification-worded variant of generate_spelling: per-group
selection picks the candidate with the highest recorded count, the score is
the arithmetic mean of the selected counts, and the first five strings by
descending score are returned. -/
def generate_spelling_spec (model : List (String × List (String × Nat)))
    (pron : List String) (final_e : Bool) : Option (List String) :=
  ((pron_breaker (normalize_pron pron)).foldlM (spelling_step_spec model final_e) []).map
    (fun spellings => ((sortDescBy (fun x => x.2) spellings).take 5).map (fun x => x.1))

/-- The spelling attachment of generate_entry (source line 576): the first
element of the candidate list is taken by index, so an empty list raises an
IndexError, modelled by none. -/
def generate_entry_spelling (model : List (String × List (String × Nat)))
    (pron : List String) (final_e : Bool) : Option String :=
  (generate_spelling model pron final_e).bind List.head?

/-- The specification wording of the first touch-up: if the final letter is
a sonorant and the letter immediately before it is not a vowel letter,
insert e immediately before the final letter. -/
def touch_up_spec_a (s : List Char) : List Char :=
  match s.getLast?, s.dropLast.getLast? with
  | some last, some pen =>
    if sonorants.contains last && !(vowel_letters.contains pen) then
      s.dropLast ++ ['e', last]
    else s
  | _, _ => s

/-- The specification wording of the second touch-up: if the flag is set
and the string does not already end in e, append e. -/
def touch_up_spec_b (final_e : Bool) (s : List Char) : List Char :=
  if final_e && !(s.getLast? == some 'e') then s ++ ['e'] else s

/-- The specification wording of sound_change, stated positionally over the
original input sequence: position i is rewritten exactly when the phone at
i is a key of the map and both context searches succeed on the space-joined
phones strictly before and strictly after i, every other position is copied
unchanged, and the emitted empty strings are dropped at the end. -/
def sound_change_spec (orig : List String) (maps : List (String × String))
    (prior posterior : List Char → Bool) : List String :=
  ((List.range orig.length).map (fun i =>
    let p := orig.getD i ("")
    if (maps.lookup p).isSome && prior (joinPhones (orig.take i))
        && posterior (joinPhones (orig.drop (i + 1))) then
      (maps.lookup p).getD p
    else p)).filter (fun s => s ≠ (""))

/-- The suppression condition actually implemented by the Grimm prior
pattern: the context before the position is a single phone that is nonempty
and consists only of s characters. -/
def grimm1_suppressed : List String → Bool
  | [p] => !(p.toList.isEmpty) && p.toList.all (fun c => c == 's')
  | _ => false

/-- The firing condition actually implemented by the Verner prior pattern,
stated at phone level: some prior phone other than the last prior phone
contains a vowel token as a substring. -/
def verner_fires (l : List String) : Bool :=
  l.dropLast.any (fun ph => vowels.any (fun v => isSubOf (v.toList) ph.toList))

/-- The source phones addressed by the rule maps of grimm_changes. -/
def grimm_keys : List String :=
  ["p","t","k_>","k","kw","b","d","g_>","g","gw","bh","dh","g_>h","gh","gwh"]

/-- The source phones addressed by the rule map of the Verner step. -/
def verner_keys : List String := ["s","f","x","xw"]

/-- The source phones addressed by the rule maps of old_english_changes. -/
def oe_keys : List String :=
  ["Gw","G","v","D","x","h","z","a","a:","ai","au","eu","iu"]

/-- The source phones addressed by the rule maps of late_old_english_changes. -/
def loe_keys : List String :=
  ["a","ae","o","u","a:","o:","u:","ea","eo","io","e","i","i:","io:"]

/-- The position loop of sound_change, written positionally: the element at
offset i of the remaining phones is emitted from the accumulated prefix and
the remaining suffix of the original sequence. -/
theorem sound_change_go_eq (maps : List (String × String)) (pr po : List Char → Bool) :
    ∀ (rest prev : List String),
      sound_change_go maps pr po prev rest =
        (List.range rest.length).map (fun i =>
          sc_emit maps pr po (prev ++ rest.take i) (rest.getD i ("")) (rest.drop (i + 1)))
  | [], prev => by simp [sound_change_go]
  | p :: rest, prev => by
    rw [sound_change_go, sound_change_go_eq maps pr po rest (prev ++ [p])]
    simp only [List.length_cons, List.range_succ_eq_map, List.map_cons, List.map_map]
    congr 1
    case _ => simp
    case _ =>
      apply List.map_congr_left
      intro i _
      simp only [Function.comp_apply, List.take_succ_cons, List.getD_cons_succ,
        List.drop_succ_cons]
      rw [List.append_cons prev p (List.take i rest)]

/-- C2: sound_change realizes exactly the positional description of the
specification: position i is rewritten to its map image exactly when the
phone there is a key and both context searches succeed on the space-joined
phones strictly before and strictly after i, both taken from the original
input; every other position is copied; emitted empty strings are then
dropped, realizing deletion, as on the deletion example. -/
theorem c2_sound_change_spec :
    (∀ (orig : List String) (maps : List (String × String)) (pr po : List Char → Bool),
      sound_change orig maps pr po = sound_change_spec orig maps pr po)
    ∧ sound_change ["a","h1","o"] [("h1","")] ctx_any ctx_any = ["a","o"] := by
  constructor
  case _ =>
    intro orig maps pr po
    rw [sound_change, sound_change_spec, sound_change_go_eq]
    congr 1
    apply List.map_congr_left
    intro i _
    simp only [List.nil_append]
    rw [sc_emit]
    cases h : maps.lookup (orig.getD i ("")) with
    | none => simp [h]
    | some q => simp [h, Bool.and_assoc]
  case _ => rfl

/-- C1: evaluations of pron_breaker pinning down the failing behavior: a
one-phone sequence yields exactly the trivial partition, but a two-phone
sequence yields the two-group composition twice and never the one-group
partition, and a three-phone sequence yields five partitions, not four. -/
theorem c1_pron_breaker_eval :
    pron_breaker (["p"] : List String) = [[["p"]]]
    ∧ pron_breaker (["p","e"] : List String) = [[["p"],["e"]], [["p"],["e"]]]
    ∧ [["p","e"]] ∉ pron_breaker (["p","e"] : List String)
    ∧ (pron_breaker (["p","e","t"] : List String)).length = 5 := by
  refine ⟨rfl, rfl, ?_, rfl⟩
  decide

/-- C3: when no partition of the phone sequence is covered by the model,
generate_spelling returns the empty list without failing, but the caller
generate_entry takes element zero of that list, which has no value: the
empty candidate list is not treated as a first-class case. -/
theorem c3_empty_candidates :
    generate_spelling [("b", [("b", 1)])] ["q"] false = some []
    ∧ generate_entry_spelling [("b", [("b", 1)])] ["q"] false = none := ⟨rfl, rfl⟩

/-- C10: a combined phone sequence consisting only of laryngeal phones is
emptied by the Late PIE stage, every later stage maps the empty sequence to
the empty sequence, and the silent-e flag computation of generate_entry,
which unconditionally inspects the final Middle English phone, has no value
on it: generate_entry raises an IndexError there. -/
theorem c10_empty_middle_english :
    late_pie_changes ["h1","h2","h3","\\H"] = []
    ∧ pipeline_to_middle_english ["h1"] = []
    ∧ final_e_flag ["h1"] = none
    ∧ pipeline_to_middle_english ["h1","h2","h3","\\H"] = []
    ∧ final_e_flag ["h1","h2","h3","\\H"] = none := ⟨rfl, rfl, rfl, rfl, rfl⟩

/-- A successful lookup comes from an entry of the association list. -/
theorem mem_of_lookup_some {α β : Type*} [BEq α] [LawfulBEq α] :
    ∀ {maps : List (α × β)} {k : α} {v : β}, maps.lookup k = some v → (k, v) ∈ maps
  | [], _, _, h => by simp [List.lookup] at h
  | (a, b) :: rest, k, v, h => by
    rw [List.lookup] at h
    by_cases hak : k == a
    case pos =>
      rw [hak] at h
      cases h
      have hka : k = a := eq_of_beq hak
      subst hka
      exact List.mem_cons_self _ _
    case neg =>
      rw [Bool.not_eq_true] at hak
      rw [hak] at h
      exact List.mem_cons_of_mem _ (mem_of_lookup_some h)

/-- A key absent from the key column of the association list looks up to none. -/
theorem lookup_none_of_not_mem_keys {α β : Type*} [BEq α] [LawfulBEq α]
    {maps : List (α × β)} {k : α} (h : k ∉ maps.map Prod.fst) : maps.lookup k = none := by
  apply List.lookup_eq_none_iff.mpr
  intro p hp
  have : p.1 ∈ maps.map Prod.fst := List.mem_map.mpr ⟨p, hp, rfl⟩
  have hne : k ≠ p.1 := fun he => h (he ▸ this)
  simpa using hne

/-- The emission of sound_change is never the empty string when the phone
is nonempty and every replacement of the map is nonempty. -/
theorem sc_emit_ne (maps : List (String × String)) (pr po : List Char → Bool)
    (prev rest : List String) (p : String) (hp : p ≠ (""))
    (hv : ∀ pq ∈ maps, pq.2 ≠ ("")) : sc_emit maps pr po prev p rest ≠ ("") := by
  cases h : maps.lookup p with
  | none => simp only [sc_emit, h]; exact hp
  | some q =>
    have hq : q ≠ ("") := hv _ (mem_of_lookup_some h)
    simp only [sc_emit, h]
    split
    case _ => exact hq
    case _ => exact hp

/-- Positional description of sound_change on sequences with no empty
phone, for maps whose replacements are nonempty: no entry is filtered away,
so the output at position i is the emission at position i. -/
theorem sound_change_getD (orig : List String) (maps : List (String × String))
    (pr po : List Char → Bool) (hne : ("") ∉ orig) (hv : ∀ pq ∈ maps, pq.2 ≠ (""))
    (i : ℕ) (hi : i < orig.length) :
    (sound_change orig maps pr po).getD i ("") =
      sc_emit maps pr po (orig.take i) (orig.getD i ("")) (orig.drop (i + 1)) := by
  have hgo := sound_change_go_eq maps pr po orig []
  have hfil : (sound_change_go maps pr po [] orig).filter (fun s => s ≠ ("")) =
      sound_change_go maps pr po [] orig := by
    apply List.filter_eq_self.mpr
    intro a ha
    rw [hgo] at ha
    obtain ⟨j, hj, rfl⟩ := List.mem_map.mp ha
    have hjl : j < orig.length := List.mem_range.mp hj
    have hpm : orig.getD j ("") ∈ orig := by
      rw [List.getD_eq_getElem _ _ hjl]
      exact List.getElem_mem hjl
    have hpe : orig.getD j ("") ≠ ("") := fun heq => hne (heq ▸ hpm)
    exact decide_eq_true (sc_emit_ne maps pr po _ _ _ hpe hv)
  rw [sound_change, hfil, hgo, List.getD_eq_getElem?_getD, List.getElem?_map,
    List.getElem?_range hi]
  simp

/-- Some character fails a Boolean test exactly when not all pass it. -/
theorem any_bne_eq_not_all_beq (x : Char) (cs : List Char) :
    cs.any (fun c => c != x) = !(cs.all (fun c => c == x)) := by
  induction cs with
  | nil => rfl
  | cons c cs ih =>
    rw [List.any_cons, List.all_cons, Bool.not_and, ih]
    rfl

/-- The Grimm prior search on a joined phone context fails exactly when the
context is a single nonempty all-s phone: a context of two or more phones
always contains a space, which is not the character s. -/
theorem grimm1_prior_join (l : List String) :
    grimm1_prior (joinPhones l) = !(grimm1_suppressed l) := by
  match l with
  | [] => rfl
  | [p] =>
    rw [grimm1_prior, grimm1_suppressed, joinPhones, any_bne_eq_not_all_beq,
      Bool.not_and, Bool.not_not]
  | p :: q :: rest =>
    rw [grimm1_prior, joinPhones]
    have hsp : (' ') ∈ p.toList ++ (' ') :: joinPhones (q :: rest) :=
      List.mem_append_right _ (List.mem_cons_self _ _)
    have hany : (p.toList ++ (' ') :: joinPhones (q :: rest)).any (fun c => c != 's') = true :=
      List.any_eq_true.mpr ⟨' ', hsp, by decide⟩
    rw [hany, Bool.or_true]
    rfl

/-- C4 counterexample: in the first Grimm pass the phone p of the sequence
a s p is shifted to f although it is immediately preceded by the sibilant
s, because the prior text a-space-s contains characters other than s, so
the prior pattern search succeeds; the claim asserts such an occurrence is
left unchanged. -/
theorem c4_counterexample :
    sound_change ["a","s","p"] dict_grimm1 grimm1_prior ctx_any = ["a","s","f"]
    ∧ grimm_changes ["a","s","p"] = ["a","s","f"] := ⟨rfl, rfl⟩

/-- C4 amended: the first Grimm pass shifts an occurrence of one of the
voiceless stops unless the space-joined prior context is a single nonempty
phone consisting only of s characters, which for phone sequences over the
phone alphabet of the program means the occurrence is at position one
directly after a lone initial s; in particular s-p-e keeps its p while p-e
shifts p to f. -/
theorem c4_amended :
    (∀ (pron : List String), ("") ∉ pron → ∀ i, i < pron.length →
      (sound_change pron dict_grimm1 grimm1_prior ctx_any).getD i ("") =
        (if (dict_grimm1.lookup (pron.getD i (""))).isSome
            && !(grimm1_suppressed (pron.take i)) then
          (dict_grimm1.lookup (pron.getD i (""))).getD (pron.getD i (""))
        else pron.getD i ("")))
    ∧ grimm_changes ["s","p","e"] = ["s","p","e"]
    ∧ grimm_changes ["p","e"] = ["f","e"] := by
  refine ⟨?_, rfl, rfl⟩
  intro pron hne i hi
  rw [sound_change_getD pron dict_grimm1 grimm1_prior ctx_any hne (by decide) i hi]
  unfold sc_emit
  cases h : dict_grimm1.lookup (pron.getD i ("")) with
  | none => simp
  | some q =>
    simp only [grimm1_prior_join, ctx_any, Bool.and_true, Option.isSome_some,
      Bool.true_and, Option.getD_some]

/-- C4 witness: the amended per-position statement instantiated on the
counterexample sequence, where the suppression condition fails. -/
theorem c4_witness :
    (sound_change ["a","s","p"] dict_grimm1 grimm1_prior ctx_any).getD 2 ("") = ("f") :=
  (c4_amended.1 ["a","s","p"] (by decide) 2 (by decide)).trans (by decide)

/-- Membership in a descending insertion. -/
theorem mem_insertDescBy {α β : Type*} [LinearOrder β] (f : α → β) (x a : α) :
    ∀ l : List α, a ∈ insertDescBy f x l ↔ a = x ∨ a ∈ l
  | [] => by simp [insertDescBy]
  | y :: ys => by
    rw [insertDescBy]
    split
    case _ => simp [List.mem_cons]
    case _ =>
      rw [List.mem_cons, mem_insertDescBy f x a ys, List.mem_cons]
      tauto

/-- Membership in the stable descending sort. -/
theorem mem_sortDescBy {α β : Type*} [LinearOrder β] (f : α → β) (a : α) :
    ∀ l : List α, a ∈ sortDescBy f l ↔ a ∈ l
  | [] => Iff.rfl
  | x :: xs => by
    have h : sortDescBy f (x :: xs) = insertDescBy f x (sortDescBy f xs) := rfl
    rw [h, mem_insertDescBy, mem_sortDescBy f a xs, List.mem_cons]

/-- The substring occurrence test agrees with the infix relation. -/
theorem isSubOf_iff (pat : List Char) :
    ∀ l : List Char, isSubOf pat l = true ↔ pat <:+: l
  | [] => by
    rw [isSubOf, List.infix_nil]
    simp [List.isEmpty_iff]
  | c :: cs => by
    rw [isSubOf, List.infix_cons_iff, Bool.or_eq_true, isSubOf_iff pat cs,
      List.isPrefixOf_iff_prefix]

/-- The Verner prior search succeeds exactly when some vowel token occurs
in the text with a space somewhere at or after the end of the occurrence. -/
theorem verner_prior_iff (cs : List Char) :
    verner_prior cs = true ↔
      ∃ v ∈ vowels, ∃ A B : List Char, cs = A ++ v.toList ++ B ∧ (' ') ∈ B := by
  rw [verner_prior]
  constructor
  case _ =>
    intro h
    obtain ⟨k, _, hkb⟩ := List.any_eq_true.mp h
    rw [Bool.and_eq_true] at hkb
    obtain ⟨hsuf, hsp⟩ := hkb
    obtain ⟨v, hv, hvs⟩ := List.any_eq_true.mp hsuf
    have hvmem : v ∈ vowels := (mem_sortDescBy _ v vowels).mp hv
    obtain ⟨A, hA⟩ := List.isSuffixOf_iff_suffix.mp hvs
    refine ⟨v, hvmem, A, cs.drop k, ?_, List.elem_iff.mp hsp⟩
    rw [List.append_assoc, ← List.append_assoc A, hA, List.take_append_drop]
  case _ =>
    rintro ⟨v, hv, A, B, heq, hB⟩
    apply List.any_eq_true.mpr
    refine ⟨(A ++ v.toList).length, ?_, ?_⟩
    case _ =>
      apply List.mem_range.mpr
      apply Nat.lt_succ_of_le
      rw [heq, List.append_assoc]
      simp
    case _ =>
      rw [Bool.and_eq_true]
      constructor
      case _ =>
        apply List.any_eq_true.mpr
        refine ⟨v, (mem_sortDescBy _ v vowels).mpr hv, ?_⟩
        apply List.isSuffixOf_iff_suffix.mpr
        rw [heq, List.take_left]
        exact List.suffix_append A v.toList
      case _ =>
        apply List.elem_iff.mpr
        rw [heq, List.drop_left]
        exact hB

/-- Splitting an occurrence with a trailing space over a join boundary: for
a nonempty space-free token, an occurrence with a space after it in the
text X-space-Y lies entirely inside X (the separator supplies the space),
or entirely inside Y with its space inside Y. -/
theorem occ_split (v X Y : List Char) (hvne : v ≠ []) (hvsp : (' ') ∉ v) :
    (∃ A B : List Char, X ++ (' ') :: Y = A ++ v ++ B ∧ (' ') ∈ B) ↔
      (v <:+: X ∨ ∃ A B : List Char, Y = A ++ v ++ B ∧ (' ') ∈ B) := by
  constructor
  case _ =>
    rintro ⟨A, B, heq, hB⟩
    rw [List.append_assoc] at heq
    rcases List.append_eq_append_iff.mp heq with ⟨t, _, ht⟩ | ⟨t, hX, ht⟩
    case _ =>
      match t, ht with
      | [], ht =>
        rw [List.nil_append] at ht
        match v, hvne with
        | c :: v2, _ =>
          rw [List.cons_append] at ht
          cases ht
          exact absurd (List.mem_cons_self _ _) hvsp
      | c :: t2, ht =>
        rw [List.cons_append] at ht
        injection ht with hc hY
        right
        exact ⟨t2, B, by rw [hY, List.append_assoc], hB⟩
    case _ =>
      rcases List.append_eq_append_iff.mp ht with ⟨u, hc, hu⟩ | ⟨u, hvu, hu⟩
      case _ =>
        left
        exact ⟨A, u, by rw [hX, hc, List.append_assoc]⟩
      case _ =>
        match u, hu with
        | [], _ =>
          left
          rw [List.append_nil] at hvu
          exact ⟨A, [], by rw [hX, ← hvu, List.append_nil]⟩
        | c :: u2, hu =>
          rw [List.cons_append] at hu
          injection hu with hc _
          exact absurd (hvu ▸ List.mem_append_right _ (hc ▸ List.mem_cons_self c u2)) hvsp
  case _ =>
    rintro (⟨s, t, hst⟩ | ⟨A, B, hY, hB⟩)
    case _ =>
      refine ⟨s, t ++ (' ') :: Y, ?_, ?_⟩
      case _ => rw [← hst]; simp [List.append_assoc]
      case _ => exact List.mem_append_right _ (List.mem_cons_self _ _)
    case _ =>
      refine ⟨X ++ (' ') :: A, B, ?_, hB⟩
      rw [hY]
      simp [List.append_assoc]

/-- The Verner prior search on a joined context of space-free phones fires
exactly when some prior phone other than the last one contains a vowel
token: a vowel occurrence inside a non-final phone is followed by the
separator space, while a vowel occurrence inside the final phone has no
space after it. -/
theorem verner_prior_join :
    ∀ l : List String, (∀ p ∈ l, (' ') ∉ p.toList) →
      verner_prior (joinPhones l) = verner_fires l
  | [], _ => by decide
  | [p], hs => by
    have hnot : ¬ verner_prior (joinPhones [p]) = true := by
      rw [verner_prior_iff]
      rintro ⟨v, _, A, B, heq, hB⟩
      have hmem : (' ') ∈ p.toList := by
        have : joinPhones [p] = p.toList := rfl
        rw [this] at heq
        rw [heq]
        exact List.mem_append_right _ hB
      exact hs p (List.mem_cons_self _ _) hmem
    rw [Bool.eq_false_iff.mpr hnot]
    rfl
  | p :: q :: rest, hs => by
    have hqr : ∀ r ∈ q :: rest, (' ') ∉ r.toList :=
      fun r hr => hs r (List.mem_cons_of_mem _ hr)
    have ih := verner_prior_join (q :: rest) hqr
    have hvfact : ∀ v ∈ vowels, v.toList ≠ [] ∧ (' ') ∉ v.toList := by decide
    have hfire : verner_fires (p :: q :: rest) = true ↔
        vowels.any (fun v => isSubOf (v.toList) p.toList) = true ∨
          verner_fires (q :: rest) = true := by
      rw [verner_fires, verner_fires,
        List.dropLast_cons_of_ne_nil (List.cons_ne_nil q rest), List.any_cons,
        Bool.or_eq_true]
    have hjoin : joinPhones (p :: q :: rest) =
        p.toList ++ (' ') :: joinPhones (q :: rest) := rfl
    rw [Bool.eq_iff_iff, verner_prior_iff, hfire, hjoin]
    constructor
    case _ =>
      rintro ⟨v, hv, A, B, heq, hB⟩
      rcases (occ_split (v.toList) p.toList (joinPhones (q :: rest)) (hvfact v hv).1
          (hvfact v hv).2).mp ⟨A, B, heq, hB⟩ with hinf | ⟨A2, B2, heq2, hB2⟩
      case _ =>
        exact Or.inl (List.any_eq_true.mpr ⟨v, hv, (isSubOf_iff _ _).mpr hinf⟩)
      case _ =>
        right
        rw [← ih]
        exact (verner_prior_iff _).mpr ⟨v, hv, A2, B2, heq2, hB2⟩
    case _ =>
      rintro (hany | hrest)
      case _ =>
        obtain ⟨v, hv, hsub⟩ := List.any_eq_true.mp hany
        obtain ⟨A, B, heq, hB⟩ := (occ_split (v.toList) p.toList (joinPhones (q :: rest))
          (hvfact v hv).1 (hvfact v hv).2).mpr (Or.inl ((isSubOf_iff _ _).mp hsub))
        exact ⟨v, hv, A, B, heq, hB⟩
      case _ =>
        have hpr : verner_prior (joinPhones (q :: rest)) = true := by rw [ih]; exact hrest
        obtain ⟨v, hv, A2, B2, heq2, hB2⟩ := (verner_prior_iff _).mp hpr
        obtain ⟨A, B, heq, hB⟩ := (occ_split (v.toList) p.toList (joinPhones (q :: rest))
          (hvfact v hv).1 (hvfact v hv).2).mpr (Or.inr ⟨A2, B2, heq2, hB2⟩)
        exact ⟨v, hv, A, B, heq, hB⟩

/-- C5 counterexample: the Verner step leaves the s of t-a-s unvoiced even
though there are two prior phones with a vowel among them, refuting the
claimed equivalence between the implemented condition and the condition
that at least two phones precede with a vowel among them: here the vowel is
the last prior phone, so no space follows it in the prior text. -/
theorem c5_counterexample :
    verner_changes ["t","a","s"] = ["t","a","s"]
    ∧ 2 ≤ (["t","a"] : List String).length
    ∧ ("a") ∈ (["t","a"] : List String)
    ∧ ("a") ∈ vowels := ⟨rfl, by decide, by decide, by decide⟩

/-- C5 amended: for sequences of nonempty space-free phones, the Verner
step voices a voiceless fricative at position i exactly when some prior
phone other than the last prior phone contains a vowel token, with the
posterior context unconstrained; the two spec examples behave as stated. -/
theorem c5_amended :
    (∀ (pron : List String), (∀ p ∈ pron, (' ') ∉ p.toList) → ("") ∉ pron →
      ∀ i, i < pron.length →
      (verner_changes pron).getD i ("") =
        (if (dict_verner.lookup (pron.getD i (""))).isSome
            && verner_fires (pron.take i) then
          (dict_verner.lookup (pron.getD i (""))).getD (pron.getD i (""))
        else pron.getD i ("")))
    ∧ verner_changes ["a","t","a","s","a"] = ["a","t","a","z","a"]
    ∧ verner_changes ["a","s"] = ["a","s"] := by
  refine ⟨?_, rfl, rfl⟩
  intro pron hsp hne i hi
  rw [verner_changes, sound_change_getD pron dict_verner verner_prior ctx_any hne
    (by decide) i hi]
  unfold sc_emit
  cases h : dict_verner.lookup (pron.getD i ("")) with
  | none => simp
  | some q =>
    have hjoin := verner_prior_join (pron.take i)
      (fun p hp => hsp p (List.take_subset i pron hp))
    simp only [hjoin, ctx_any, Bool.and_true, Option.isSome_some, Bool.true_and,
      Option.getD_some]

/-- C5 witness: the amended per-position statement instantiated at the s of
the first spec example, where the condition fires. -/
theorem c5_witness :
    (verner_changes ["a","t","a","s","a"]).getD 3 ("") = ("z") :=
  (c5_amended.1 ["a","t","a","s","a"] (by decide) (by decide) 3 (by decide)).trans (by decide)

/-- Every occurrence of a phone that is not a key of the map survives the
position loop of sound_change. -/
theorem count_sound_change_go (maps : List (String × String)) (pr po : List Char → Bool)
    (q : String) (hq : maps.lookup q = none) :
    ∀ (rest prev : List String),
      rest.count q ≤ (sound_change_go maps pr po prev rest).count q
  | [], _ => le_refl _
  | p :: rest, prev => by
    rw [sound_change_go, List.count_cons, List.count_cons]
    have ih := count_sound_change_go maps pr po q hq rest (prev ++ [p])
    by_cases hpq : p = q
    case pos =>
      subst hpq
      have hemit : sc_emit maps pr po prev p rest = p := by simp only [sc_emit, hq]
      rw [hemit]
      exact Nat.add_le_add_right ih _
    case neg =>
      have h0 : (if (p == q) = true then 1 else 0) = 0 := by simp [hpq]
      rw [h0, Nat.add_zero]
      exact le_trans ih (Nat.le_add_right _ _)

/-- Engine-level preservation: sound_change never loses an occurrence of a
nonempty phone that is not a key of its map. -/
theorem sound_change_count_ge (orig : List String) (maps : List (String × String))
    (pr po : List Char → Bool) (q : String) (hq : maps.lookup q = none)
    (hne : q ≠ ("")) :
    orig.count q ≤ (sound_change orig maps pr po).count q := by
  rw [sound_change, List.count_filter (by simp [hne])]
  exact count_sound_change_go maps pr po q hq orig []

/-- Preservation through an ordered list of sound_change rules. -/
theorem apply_rules_count_ge :
    ∀ (rules : List SCRule) (q : String),
      (∀ r ∈ rules, r.1.lookup q = none) → q ≠ ("") →
      ∀ pron : List String, pron.count q ≤ (apply_rules rules pron).count q
  | [], _, _, _, _ => le_refl _
  | r :: rs, q, hq, hne, pron => by
    have h1 : pron.count q ≤ (sound_change pron r.1 r.2.1 r.2.2).count q :=
      sound_change_count_ge _ _ _ _ q (hq r (List.mem_cons_self _ _)) hne
    have h2 := apply_rules_count_ge rs q (fun r2 hr2 => hq r2 (List.mem_cons_of_mem _ hr2))
      hne (sound_change pron r.1 r.2.1 r.2.2)
    exact le_trans h1 h2

/-- C8 counterexample: the whole-text rewrite of the Proto-Germanic stage
matches across a token boundary of a-n-xw and merges the unaddressed phone
xw into the single output token a-colon-w, so a phone addressed by no rule
of the stage is not preserved in the output. -/
theorem c8_counterexample :
    proto_germanic_changes ["a","n","xw"] = ["a:w"]
    ∧ ("xw") ∉ pg_keys
    ∧ ("xw") ∉ (["a:w"] : List String) := ⟨rfl, by decide, by decide⟩

/-- C8 amended: every era stage is total on the empty and on singleton
sequences (out-of-range lookahead is treated as a failed condition, and
every stage maps the empty sequence to the empty sequence); the engine
preserves every occurrence of a nonempty phone that no rule map addresses,
hence the purely contextual stages (Grimm, Verner, Old English, Late Old
English) preserve unaddressed phones, and laryngeal deletion preserves
every phone outside its key set exactly; but stages containing whole-text
substring rewrites can destroy unaddressed phones, as the Proto-Germanic
counterexample forces. -/
theorem c8_amended :
    (late_pie_changes [] = [] ∧ grimm_changes [] = [] ∧ verner_changes [] = []
      ∧ proto_germanic_changes [] = [] ∧ old_english_changes [] = []
      ∧ late_old_english_changes [] = [] ∧ middle_english_changes [] = []
      ∧ early_modern_english_changes [] = [])
    ∧ (∀ (orig : List String) (maps : List (String × String))
        (pr po : List Char → Bool) (q : String),
        maps.lookup q = none → q ≠ ("") →
        orig.count q ≤ (sound_change orig maps pr po).count q)
    ∧ (∀ (q : String) (pron : List String), q ∉ grimm_keys → q ≠ ("") →
        pron.count q ≤ (grimm_changes pron).count q)
    ∧ (∀ (q : String) (pron : List String), q ∉ verner_keys → q ≠ ("") →
        pron.count q ≤ (verner_changes pron).count q)
    ∧ (∀ (q : String) (pron : List String), q ∉ oe_keys → q ≠ ("") →
        pron.count q ≤ (old_english_changes pron).count q)
    ∧ (∀ (q : String) (pron : List String), q ∉ loe_keys → q ≠ ("") →
        pron.count q ≤ (late_old_english_changes pron).count q)
    ∧ (∀ (q : String) (pron : List String), q ∉ (["h1","h2","h3","\\H"] : List String) →
        pron.count q = (late_pie_changes pron).count q)
    ∧ middle_english_changes ["a"] = ["a"]
    ∧ early_modern_english_changes ["b"] = ["b"] := by
  refine ⟨⟨rfl, rfl, rfl, rfl, rfl, rfl, rfl, rfl⟩, ?_, ?_, ?_, ?_, ?_, ?_, rfl, rfl⟩
  case _ =>
    intro orig maps pr po q hq hne
    exact sound_change_count_ge orig maps pr po q hq hne
  case _ =>
    intro q pron hq hne
    apply apply_rules_count_ge grimm_rules q ?_ hne pron
    intro r hr
    simp only [grimm_rules, List.mem_cons, List.not_mem_nil, or_false] at hr
    rcases hr with rfl | rfl | rfl
    case _ =>
      exact lookup_none_of_not_mem_keys
        (fun hm => hq ((show dict_grimm1.map Prod.fst ⊆ grimm_keys by decide) hm))
    case _ =>
      exact lookup_none_of_not_mem_keys
        (fun hm => hq ((show dict_grimm2.map Prod.fst ⊆ grimm_keys by decide) hm))
    case _ =>
      exact lookup_none_of_not_mem_keys
        (fun hm => hq ((show dict_grimm3.map Prod.fst ⊆ grimm_keys by decide) hm))
  case _ =>
    intro q pron hq hne
    apply sound_change_count_ge pron dict_verner verner_prior ctx_any q ?_ hne
    exact lookup_none_of_not_mem_keys
      (fun hm => hq ((show dict_verner.map Prod.fst ⊆ verner_keys by decide) hm))
  case _ =>
    intro q pron hq hne
    apply apply_rules_count_ge oe_rules q ?_ hne pron
    intro r hr
    apply lookup_none_of_not_mem_keys
    intro hm
    apply hq
    revert hm
    simp only [oe_rules, List.mem_cons, List.not_mem_nil, or_false] at hr
    rcases hr with rfl | rfl | rfl | rfl | rfl | rfl | rfl | rfl | rfl | rfl | rfl | rfl
      | rfl | rfl | rfl | rfl | rfl | rfl
    all_goals exact fun hm => (show _ ⊆ oe_keys by decide) hm
  case _ =>
    intro q pron hq hne
    apply apply_rules_count_ge loe_rules q ?_ hne pron
    intro r hr
    apply lookup_none_of_not_mem_keys
    intro hm
    apply hq
    revert hm
    simp only [loe_rules, List.mem_cons, List.not_mem_nil, or_false] at hr
    rcases hr with rfl | rfl | rfl
    all_goals exact fun hm => (show _ ⊆ loe_keys by decide) hm
  case _ =>
    intro q pron hq
    have hlook : dict_h_deletion.lookup q = none :=
      lookup_none_of_not_mem_keys
        (fun hm => hq ((show dict_h_deletion.map Prod.fst ⊆ ["h1","h2","h3","\\H"] by decide) hm))
    rw [late_pie_changes]
    exact (List.count_filter (by simp [hlook])).symm

/-- C8 witness: the engine-level preservation statement instantiated on a
concrete sequence and map. -/
theorem c8_witness :
    (["q","a"] : List String).count ("q") ≤
      (sound_change ["q","a"] [("a","o")] ctx_any ctx_any).count ("q") :=
  c8_amended.2.1 ["q","a"] [("a","o")] ctx_any ctx_any ("q") rfl (by decide)

/-- C7: on every string of at least two letters the two touch-ups are
applied in order, first the silent-e insertion before a final sonorant with
a non-vowel letter before it, then the conditional final silent e; and a
string ending in a vowel letter is returned unchanged when the flag is
false. -/
theorem c7_touch_ups :
    (∀ (s : List Char) (fe : Bool), 2 ≤ s.length →
      touch_ups fe s = some (touch_up_spec_b fe (touch_up_spec_a s)))
    ∧ (∀ (s : List Char) (c : Char), s.getLast? = some c →
        vowel_letters.contains c = true → touch_ups false s = some s) := by
  constructor
  case _ =>
    intro s fe h2
    obtain ⟨last, hlast⟩ : ∃ c, s.getLast? = some c := by
      cases hl : s.getLast? with
      | none =>
        rw [List.getLast?_eq_none_iff] at hl
        subst hl
        simp at h2
      | some c => exact ⟨c, rfl⟩
    obtain ⟨pen, hpen⟩ : ∃ c, s.dropLast.getLast? = some c := by
      cases hp : s.dropLast.getLast? with
      | none =>
        rw [List.getLast?_eq_none_iff] at hp
        have := congrArg List.length hp
        rw [List.length_dropLast] at this
        simp at this
        omega
      | some c => exact ⟨c, rfl⟩
    simp only [touch_ups, touch_up_sonorant, hlast, hpen, touch_up_spec_a, touch_up_spec_b]
    by_cases hson : last ∈ sonorants
    case pos =>
      by_cases hvow : pen ∈ vowel_letters
      case pos => simp [hson, hvow]
      case neg => simp [hson, hvow]
    case neg => simp [hson]
  case _ =>
    intro s c hlast hvow
    have hson : c ∉ sonorants := by
      have hc : c ∈ vowel_letters := List.elem_iff.mp hvow
      fin_cases hc <;> decide
    simp [touch_ups, touch_up_sonorant, hlast, hson]

/-- C7 witness: the two touch-ups on a concrete two-letter string ending in
a sonorant after a non-vowel letter. -/
theorem c7_witness :
    touch_ups false (("br").toList) = some (("ber").toList) :=
  (c7_touch_ups.1 (("br").toList) false (by decide)).trans (by decide)

/-- A silent-e touch-up that returns a value was applied to a string of at
least two letters or to a string not ending in a sonorant letter. -/
theorem touch_ups_some_shape (fe : Bool) (s t : List Char)
    (h : touch_ups fe s = some t) :
    2 ≤ s.length ∨ ∀ c, s.getLast? = some c → sonorants.contains c = false := by
  rw [touch_ups] at h
  cases h1 : touch_up_sonorant s with
  | none => rw [h1] at h; simp at h
  | some s1 =>
    cases hl : s.getLast? with
    | none =>
      simp only [touch_up_sonorant, hl] at h1
      exact Option.noConfusion h1
    | some last =>
      by_cases hson : last ∈ sonorants
      case pos =>
        left
        cases hp : s.dropLast.getLast? with
        | none => simp [touch_up_sonorant, hl, hp, hson] at h1
        | some pen =>
          have hne : s.dropLast ≠ [] := by
            intro hd
            rw [hd] at hp
            simp at hp
          have hpos := List.length_pos.mpr hne
          rw [List.length_dropLast] at hpos
          omega
      case neg =>
        right
        intro c hc
        cases hc
        simpa using hson

/-- A successful pass over the partition list implies that the touch-ups
succeed on the raw spelling of every accepted partition of the list. -/
theorem spelling_fold_accepted (model : List (String × List (String × Nat))) (fe : Bool) :
    ∀ (combos : List (List (List String))) (acc res : List (String × ℚ)),
      List.foldlM (spelling_step model fe) acc combos = some res →
      ∀ broken ∈ combos, partition_accepted model broken = true →
        ∃ t, touch_ups fe (raw_spelling model broken).toList = some t := by
  intro combos
  induction combos with
  | nil =>
    intro acc res _ broken hb
    exact absurd hb (List.not_mem_nil _)
  | cons b bs ih =>
    intro acc res hfold broken hb hacc
    rw [List.foldlM_cons] at hfold
    obtain ⟨acc2, hstep, hrest⟩ := Option.bind_eq_some.mp hfold
    rcases List.mem_cons.mp hb with rfl | hb2
    case _ =>
      rw [spelling_step, if_pos hacc] at hstep
      obtain ⟨choices, hch, hmap⟩ := Option.bind_eq_some.mp hstep
      obtain ⟨t, ht, _⟩ := Option.map_eq_some'.mp hmap
      refine ⟨t, ?_⟩
      rw [raw_spelling, hch]
      simpa using ht
    case _ => exact ih acc2 res hrest broken hb2 hacc

/-- C9: generate_spelling is not total over accepted partitions with a
one-letter sonorant raw spelling: on such an input the touch-up reads the
second-to-last letter of a one-letter string and has no value; and whenever
generate_spelling returns a value, every accepted partition has a raw
spelling of length at least two or one that does not end in a sonorant
letter. -/
theorem c9_touch_up_crash :
    generate_spelling [("r", [("r", 5)])] ["r"] false = none
    ∧ (∀ (model : List (String × List (String × Nat))) (pron : List String)
        (fe : Bool) (out : List String),
        generate_spelling model pron fe = some out →
        ∀ broken ∈ pron_breaker (normalize_pron pron),
          partition_accepted model broken = true →
          2 ≤ (raw_spelling model broken).length ∨
            ∀ c, (raw_spelling model broken).toList.getLast? = some c →
              sonorants.contains c = false) := by
  constructor
  case _ => rfl
  case _ =>
    intro model pron fe out hgen broken hb hacc
    rw [generate_spelling] at hgen
    obtain ⟨sp, hfold, _⟩ := Option.map_eq_some'.mp hgen
    obtain ⟨t, ht⟩ := spelling_fold_accepted model fe _ [] sp hfold broken hb hacc
    exact touch_ups_some_shape fe _ t ht

/-- C9 witness: the only-when statement instantiated on a model and input
for which generate_spelling returns normally. -/
theorem c9_witness :
    2 ≤ (raw_spelling [("b", [("b", 3)])] [["b"]]).length ∨
      ∀ c, (raw_spelling [("b", [("b", 3)])] [["b"]]).toList.getLast? = some c →
        sonorants.contains c = false :=
  c9_touch_up_crash.2 [("b", [("b", 3)])] ["b"] false ["b"] rfl [["b"]] (by decide) rfl

/-- The head of a descending insertion: the inserted element when it wins
against the previous head, with ties going to the inserted (earlier)
element. -/
theorem head_insertDescBy {α β : Type*} [LinearOrder β] (f : α → β) (x : α) :
    ∀ l : List α, (insertDescBy f x l).head? =
      some (match l.head? with
            | none => x
            | some y => if f y ≤ f x then x else y)
  | [] => rfl
  | y :: ys => by
    rw [insertDescBy]
    by_cases h : f y ≤ f x
    case pos =>
      rw [if_pos h]
      simp [h]
    case neg =>
      rw [if_neg h]
      simp [h]

/-- The head of the stable descending sort with an element inserted equals
the left fold selecting the first element holding the maximal key. -/
theorem head_sortDescBy_foldl {α β : Type*} [LinearOrder β] (f : α → β) :
    ∀ (l : List α) (c : α),
      (insertDescBy f c (sortDescBy f l)).head? =
        some (l.foldl (fun best x => if f best < f x then x else best) c)
  | [], _ => rfl
  | x :: xs, c => by
    have hs : sortDescBy f (x :: xs) = insertDescBy f x (sortDescBy f xs) := rfl
    rw [List.foldl_cons, ← head_sortDescBy_foldl f xs (if f c < f x then x else c), hs]
    rw [head_insertDescBy, head_insertDescBy, head_insertDescBy]
    cases hh : (sortDescBy f xs).head? with
    | none =>
      simp only
      by_cases h : f x ≤ f c
      case pos => rw [if_pos h, if_neg (not_lt.mpr h)]
      case neg => rw [if_neg h, if_pos (lt_of_not_le h)]
    | some m =>
      simp only
      by_cases h1 : f m ≤ f x
      case pos =>
        rw [if_pos h1]
        by_cases h2 : f x ≤ f c
        case pos => rw [if_pos h2, if_neg (not_lt.mpr h2), if_pos (h1.trans h2)]
        case neg => rw [if_neg h2, if_pos (lt_of_not_le h2), if_pos h1]
      case neg =>
        rw [if_neg h1]
        have hxm : f x < f m := lt_of_not_le h1
        by_cases h2 : f m ≤ f c
        case pos =>
          rw [if_pos h2, if_neg (not_lt.mpr (le_of_lt (lt_of_lt_of_le hxm h2))), if_pos h2]
        case neg =>
          have hcm : f c < f m := lt_of_not_le h2
          rw [if_neg h2]
          by_cases h3 : f c < f x
          case pos => rw [if_pos h3, if_neg (not_le.mpr hxm)]
          case neg => rw [if_neg h3, if_neg (not_le.mpr hcm)]

/-- The source selection, head of the stable descending sort of the
candidates, picks exactly the first candidate holding the highest count. -/
theorem best_candidate_eq_max : best_candidate = max_candidate := by
  funext cands
  cases cands with
  | nil => rfl
  | cons c rest =>
    rw [best_candidate, max_candidate]
    have hs : sortDescBy (fun x : String × Nat => x.2) (c :: rest) =
        insertDescBy (fun x => x.2) c (sortDescBy (fun x => x.2) rest) := rfl
    rw [hs, head_sortDescBy_foldl]

/-- Insertion preserves the descending pairwise order. -/
theorem pairwise_insertDescBy {α β : Type*} [LinearOrder β] (f : α → β) (x : α) :
    ∀ l : List α, List.Pairwise (fun a b => f b ≤ f a) l →
      List.Pairwise (fun a b => f b ≤ f a) (insertDescBy f x l)
  | [], _ => by simp [insertDescBy]
  | y :: ys, hp => by
    rw [insertDescBy]
    rcases List.pairwise_cons.mp hp with ⟨hy, hys⟩
    by_cases h : f y ≤ f x
    case pos =>
      rw [if_pos h]
      apply List.pairwise_cons.mpr
      refine ⟨?_, hp⟩
      intro z hz
      rcases List.mem_cons.mp hz with rfl | hz2
      case _ => exact h
      case _ => exact le_trans (hy z hz2) h
    case neg =>
      rw [if_neg h]
      apply List.pairwise_cons.mpr
      constructor
      case _ =>
        intro z hz
        rcases (mem_insertDescBy f x z ys).mp hz with rfl | hz2
        case _ => exact le_of_lt (lt_of_not_le h)
        case _ => exact hy z hz2
      case _ => exact pairwise_insertDescBy f x ys hys

/-- The stable descending sort is sorted: keys never increase. -/
theorem pairwise_sortDescBy {α β : Type*} [LinearOrder β] (f : α → β) :
    ∀ l : List α, List.Pairwise (fun a b => f b ≤ f a) (sortDescBy f l)
  | [] => List.Pairwise.nil
  | x :: xs => pairwise_insertDescBy f x (sortDescBy f xs) (pairwise_sortDescBy f xs)

/-- C6: generate_spelling agrees with its specification wording, selecting
per group the first candidate of highest recorded count and scoring a
partition by the arithmetic mean of the selected counts; the ranking sort
is descending in score; a returned list never has more than five strings;
and duplicate strings arising from different partitions are kept, as on the
concrete model where three different accepted partitions spell the same
string. -/
theorem c6_ranking :
    (∀ (model : List (String × List (String × Nat))) (pron : List String) (fe : Bool),
      generate_spelling model pron fe = generate_spelling_spec model pron fe)
    ∧ (∀ l : List (String × ℚ),
        List.Pairwise (fun a b => b.2 ≤ a.2) (sortDescBy (fun x => x.2) l))
    ∧ (∀ (model : List (String × List (String × Nat))) (pron : List String)
        (fe : Bool) (out : List String),
        generate_spelling model pron fe = some out → out.length ≤ 5)
    ∧ generate_spelling
        [("b",[("x",1)]),("d",[("y",1)]),("g",[("z",1)]),("dg",[("yz",1)]),("bd",[("xy",1)])]
        ["b","d","g"] false = some ["xyz","xyz","xyz","xyz","xyz"] := by
  refine ⟨?_, ?_, ?_, ?_⟩
  case _ =>
    intro model pron fe
    have h : spelling_step model fe = spelling_step_spec model fe := by
      funext acc broken
      rw [spelling_step, spelling_step_spec, partition_choices, partition_choices_spec,
        best_candidate_eq_max]
    rw [generate_spelling, generate_spelling_spec, h]
  case _ =>
    intro l
    exact pairwise_sortDescBy (fun x : String × ℚ => x.2) l
  case _ =>
    intro model pron fe out h
    obtain ⟨sp, _, hout⟩ := Option.map_eq_some'.mp h
    rw [← hout, List.length_map, List.length_take]
    exact min_le_left _ _
  case _ =>
    have hfold :
        List.foldlM
          (spelling_step
            [("b",[("x",1)]),("d",[("y",1)]),("g",[("z",1)]),("dg",[("yz",1)]),("bd",[("xy",1)])]
            false)
          []
          (pron_breaker (normalize_pron ["b","d","g"])) =
        some [(("xyz"), (((2:ℕ):ℚ)) / (((2:ℕ):ℚ))), (("xyz"), (((3:ℕ):ℚ)) / (((3:ℕ):ℚ))),
          (("xyz"), (((3:ℕ):ℚ)) / (((3:ℕ):ℚ))), (("xyz"), (((2:ℕ):ℚ)) / (((2:ℕ):ℚ))),
          (("xyz"), (((2:ℕ):ℚ)) / (((2:ℕ):ℚ)))] := rfl
    have h22 : (((2:ℕ):ℚ)) / (((2:ℕ):ℚ)) = 1 := by norm_num
    have h33 : (((3:ℕ):ℚ)) / (((3:ℕ):ℚ)) = 1 := by norm_num
    rw [generate_spelling, hfold, h22, h33]
    decide

/-- C6 witness: the length bound instantiated on the concrete model with
five returned strings. -/
theorem c6_witness :
    (["xyz","xyz","xyz","xyz","xyz"] : List String).length ≤ 5 :=
  c6_ranking.2.2.1
    [("b",[("x",1)]),("d",[("y",1)]),("g",[("z",1)]),("dg",[("yz",1)]),("bd",[("xy",1)])]
    ["b","d","g"] false ["xyz","xyz","xyz","xyz","xyz"] c6_ranking.2.2.2
